/-
Verification development for the query-expansion term-selection engine of
xapian-core (file `xapian-core/expand/esetinternal.cc`).

The development shallowly embeds the algorithm of `ESet::Internal::expand`:
the merged candidate stream is a list of (term, weight) pairs (the weight is
the value the external `ExpandWeight` engine computes at that stream
position, after `collect_stats`), the optional `ExpandDecider` is an
`Option (String → Bool)`, and `double` weights are embedded as rationals
(the algorithm only compares weights; it performs no arithmetic on them).

Debug assertions (`Assert` / `AssertRel` from omassert.h) are embedded as
fail-fast guards: a function whose C++ counterpart would fire an assertion
returns a distinguished failure value (`none` / `.assertFailed`).

The C++ heap calls (`make_heap` / `push_heap` / `pop_heap` on
`std::vector<ExpandTerm>`) are embedded at the level of their specified
effect on the collection's contents: `pop_heap` followed by `pop_back`
removes one maximal element under `operator<` (the worst candidate); the
final `sort` / `sort_heap` orders the retained elements ascending under
`operator<` (best candidate first).  All theorems below depend only on the
multiset of retained elements, which these specifications determine.
-/
import Mathlib

namespace Xapian

/-- Lexicographic comparison of strings, decided by comparing the
underlying character lists (`std::string::operator<` semantics). -/
instance (priority := 2000) decStrLt (a b : String) : Decidable (a < b) :=
  decidable_of_iff (a.toList < b.toList) String.lt_iff_toList_lt.symm

/-- Decision procedure for `≤` on strings via the character lists. -/
instance (priority := 2000) decStrLe (a b : String) : Decidable (a ≤ b) :=
  decidable_of_iff (a.toList ≤ b.toList) String.le_iff_toList_le.symm

/-- Embedding of `Xapian::Internal::ExpandTerm` (a weight together with a
term name). -/
structure ExpandTerm where
  wt : ℚ
  term : String
deriving DecidableEq

/-- Modelled from the spec: the total order on Candidate Descriptors,
"primary key weight descending, secondary key term ascending
(lexicographic)".  This is `operator<` of `ExpandTerm`, declared in
`esetinternal.h` (a header not present under src/), used for the heap
comparisons and for the final sort; `a < b` means `a` is a better
candidate than `b`. -/
def ExpandTerm.lt (a b : ExpandTerm) : Prop :=
  b.wt < a.wt ∨ (a.wt = b.wt ∧ a.term < b.term)

/-- The reflexive closure of `ExpandTerm.lt`: `a` is at least as good as
`b`. -/
def ExpandTerm.le (a b : ExpandTerm) : Prop :=
  b.wt < a.wt ∨ (a.wt = b.wt ∧ a.term ≤ b.term)

instance : DecidableRel ExpandTerm.lt := fun a b =>
  inferInstanceAs (Decidable (_ ∨ _))

instance : DecidableRel ExpandTerm.le := fun a b =>
  inferInstanceAs (Decidable (_ ∨ _))

instance : IsTotal ExpandTerm ExpandTerm.le :=
  ⟨fun a b => by
    rcases lt_trichotomy a.wt b.wt with h | h | h
    · exact Or.inr (Or.inl h)
    · rcases le_total a.term b.term with h' | h'
      · exact Or.inl (Or.inr ⟨h, h'⟩)
      · exact Or.inr (Or.inr ⟨h.symm, h'⟩)
    · exact Or.inl (Or.inl h)⟩

instance : IsTrans ExpandTerm ExpandTerm.le :=
  ⟨fun a b c hab hbc => by
    rcases hab with h1 | ⟨h1, h1'⟩ <;> rcases hbc with h2 | ⟨h2, h2'⟩
    · exact Or.inl (lt_trans h2 h1)
    · exact Or.inl (h2 ▸ h1)
    · exact Or.inl (by rw [h1]; exact h2)
    · exact Or.inr ⟨h1.trans h2, h1'.trans h2'⟩⟩

/-- The worst (least preferred) element among `x :: l` under the total
order: the element `std::pop_heap` brings to the back when the heap is
ordered by `ExpandTerm.lt`. -/
def worstOf (x : ExpandTerm) : List ExpandTerm → ExpandTerm
  | [] => x
  | y :: ys => worstOf (if ExpandTerm.le x y then y else x) ys

/-- The worst element of a list, with a fallback value for the (unreachable
when `max_esize ≥ 1`) empty case. -/
def worstList (l : List ExpandTerm) (fallback : ExpandTerm) : ExpandTerm :=
  match l with
  | [] => fallback
  | x :: xs => worstOf x xs

/-- The weight of the worst element of `l` (the value `items.front().wt`
reads after `pop_heap`/`pop_back`), with a fallback for the empty case. -/
def worstWt (l : List ExpandTerm) (fallback : ℚ) : ℚ :=
  match l with
  | [] => fallback
  | x :: xs => (worstOf x xs).wt

/-- The mutable state of the candidate loop of `ESet::Internal::expand`:
the running candidate count `ebound`, the retained candidates `items`
(contents of the `std::vector`; only their multiset matters), and the
current acceptance threshold `min_wt`. -/
structure EState where
  ebound : ℕ
  items : List ExpandTerm
  min_wt : ℚ
deriving DecidableEq

/-- Whether the optional `ExpandDecider` accepts a term (`edecider == NULL`
accepts everything). -/
def acceptsOpt (edecider : Option (String → Bool)) (term : String) : Bool :=
  match edecider with
  | none => true
  | some d => d term

/-- One iteration of the candidate loop of `ESet::Internal::expand`
(esetinternal.cc lines 120-151) for a stream element carrying `term` and
the weight `wt` the `ExpandWeight` engine computes there:
skip the term if the decider rejects it; otherwise count it, reject it if
`wt ≤ min_wt` (strict-greater acceptance), otherwise append it and, on
overflow past `max_esize`, remove the worst element and raise the
threshold to the weight of the new worst retained element. -/
def expandStep (edecider : Option (String → Bool)) (max_esize : ℕ)
    (s : EState) (term : String) (wt : ℚ) : EState :=
  if acceptsOpt edecider term = false then s
  else
    let ebound := s.ebound + 1
    if wt ≤ s.min_wt then { s with ebound := ebound }
    else
      let items := s.items ++ [⟨wt, term⟩]
      if max_esize < items.length then
        let items2 := items.erase (worstList items ⟨wt, term⟩)
        { ebound := ebound, items := items2,
          min_wt := worstWt items2 s.min_wt }
      else
        { ebound := ebound, items := items, min_wt := s.min_wt }

/-- The candidate loop, folded over the merged stream from an initial
state. -/
def expandLoop (edecider : Option (String → Bool)) (max_esize : ℕ)
    (s : EState) (stream : List (String × ℚ)) : EState :=
  stream.foldl (fun s tw => expandStep edecider max_esize s tw.1 tw.2) s

/-- The initial loop state: `ebound = 0`, no items, threshold `min_wt`. -/
def initState (min_wt : ℚ) : EState := ⟨0, [], min_wt⟩

/-- The final sort of `ESet::Internal::expand` (lines 154-159): order the
retained items ascending under `operator<`, i.e. best candidate first. -/
def sortItems (l : List ExpandTerm) : List ExpandTerm :=
  l.insertionSort ExpandTerm.le

/-- Running `ESet::Internal::expand`'s candidate loop over a whole merged
stream and sorting: yields the final `(ebound, items)` of the populated
`ESet::Internal`. -/
def expandResult (edecider : Option (String → Bool)) (max_esize : ℕ)
    (min_wt : ℚ) (stream : List (String × ℚ)) : ℕ × List ExpandTerm :=
  let s := expandLoop edecider max_esize (initState min_wt) stream
  (s.ebound, sortItems s.items)

/-- The loop state instrumented with a ghost record of every candidate
that was accepted (passed both the decider and the strict threshold test
and was handed to the bounded selector), in stream order.  The ghost
field changes nothing observable; see `proj_expandLoopG`. -/
structure EStateG where
  ebound : ℕ
  items : List ExpandTerm
  min_wt : ℚ
  accepted : List ExpandTerm

/-- Forget the ghost field. -/
def EStateG.proj (s : EStateG) : EState := ⟨s.ebound, s.items, s.min_wt⟩

/-- `expandStep`, instrumented: the branch that appends to `items` also
appends the same candidate to the ghost `accepted` list. -/
def expandStepG (edecider : Option (String → Bool)) (max_esize : ℕ)
    (s : EStateG) (term : String) (wt : ℚ) : EStateG :=
  if acceptsOpt edecider term = false then s
  else
    let ebound := s.ebound + 1
    if wt ≤ s.min_wt then { s with ebound := ebound }
    else
      let items := s.items ++ [⟨wt, term⟩]
      let accepted := s.accepted ++ [⟨wt, term⟩]
      if max_esize < items.length then
        let items2 := items.erase (worstList items ⟨wt, term⟩)
        { ebound := ebound, items := items2,
          min_wt := worstWt items2 s.min_wt, accepted := accepted }
      else
        { ebound := ebound, items := items, min_wt := s.min_wt,
          accepted := accepted }

/-- The instrumented candidate loop. -/
def expandLoopG (edecider : Option (String → Bool)) (max_esize : ℕ)
    (s : EStateG) (stream : List (String × ℚ)) : EStateG :=
  stream.foldl (fun s tw => expandStepG edecider max_esize s tw.1 tw.2) s

/-- The instrumented initial state. -/
def initStateG (min_wt : ℚ) : EStateG := ⟨0, [], min_wt, []⟩

/-- `items` is the selection of the `max_esize` best candidates among
`acc` under the total order: it has `min max_esize acc.length` elements,
all drawn from `acc`, and every accepted candidate left out is strictly
worse than every retained one. -/
def isBestK (max_esize : ℕ) (acc items : List ExpandTerm) : Prop :=
  items.length = min max_esize acc.length ∧
  (∀ z ∈ items, z ∈ acc) ∧
  ∀ y ∈ acc, y ∉ items → ∀ z ∈ items, ExpandTerm.lt z y

/-- The inductive invariant of the candidate loop, over the instrumented
state: the retained items are a sublist of the accepted candidates and
are exactly the `max_esize` best of them; every accepted candidate that
was evicted is at or below the current threshold; the threshold never
falls below its starting value `min_wt0`; and every retained item is at
or above the threshold and strictly above `min_wt0`. -/
def ExpandInv (max_esize : ℕ) (min_wt0 : ℚ) (s : EStateG) : Prop :=
  s.items.length = min max_esize s.accepted.length ∧
  s.items.Sublist s.accepted ∧
  (s.accepted.map ExpandTerm.term).Nodup ∧
  (∀ y ∈ s.accepted, y ∉ s.items →
    (∀ z ∈ s.items, ExpandTerm.lt z y) ∧ y.wt ≤ s.min_wt) ∧
  min_wt0 ≤ s.min_wt ∧
  (∀ z ∈ s.items, s.min_wt ≤ z.wt ∧ min_wt0 < z.wt)

/-- A per-document term list as the storage layer supplies it: the ordered
(term ascending) occurrences with their within-document frequencies. -/
abbrev TermListData := List (String × ℕ)

/-- Modelled from the spec: merging two ordered per-document term lists
into their union — each distinct term appears once, in ascending term
order, carrying combined frequency statistics.  This is the behaviour of
the `OrTermList` merge nodes (ortermlist.cc, not present under src/),
§4.1 of the specification.  The explicit fuel makes the recursion
structural. -/
def mergeTwoFuel : ℕ → List (String × ℕ) → List (String × ℕ) →
    List (String × ℕ)
  | 0, xs, ys => xs ++ ys
  | _ + 1, [], ys => ys
  | _ + 1, x :: xs, [] => x :: xs
  | fuel + 1, (t1, f1) :: xs, (t2, f2) :: ys =>
    if t1 < t2 then (t1, f1) :: mergeTwoFuel fuel xs ((t2, f2) :: ys)
    else if t2 < t1 then (t2, f2) :: mergeTwoFuel fuel ((t1, f1) :: xs) ys
    else (t1, f1 + f2) :: mergeTwoFuel fuel xs ys

/-- `mergeTwoFuel` with enough fuel to exhaust both lists (the combined
length decreases on every recursive call, so `xs.length + ys.length`
steps always suffice). -/
def mergeTwo (xs ys : List (String × ℕ)) : List (String × ℕ) :=
  mergeTwoFuel (xs.length + ys.length) xs ys

/-- Modelled from the spec: the merged candidate stream over all documents
of the reference set (§4.1: union semantics, every distinct term yielded
at most once with combined statistics). -/
def mergeTermLists (docs : List TermListData) : TermListData :=
  docs.foldl mergeTwo []

/-- Embedding of `ESet::Internal`: the candidate count `ebound` and the
retained items (empty at creation, populated once by `expand`). -/
structure ESetInternal where
  ebound : ℕ
  items : List ExpandTerm
deriving DecidableEq

/-- Embedding of `build_termlist_tree` (esetinternal.cc lines 67-87) as a
recursion over the reference set's document ids: open each document's
term iterator in order, accumulating the opened iterators; if an open
fails, release every iterator opened so far — each exactly once, this is
the `for_each(..., delete_ptr<TermList>())` of the catch block — and
re-raise.  An opened iterator is identified by its document id; on
failure the error carries the ids of the released iterators in order. -/
def buildGo {E : Type} (openTL : ℕ → Except E TermListData)
    (acc : List (ℕ × TermListData)) :
    List ℕ → Except (E × List ℕ) (List (ℕ × TermListData))
  | [] => .ok acc
  | did :: dids =>
    match openTL did with
    | .ok tl => buildGo openTL (acc ++ [(did, tl)]) dids
    | .error e => .error (e, acc.map Prod.fst)

/-- `build_termlist_tree` proper: start from no opened iterators. -/
def build_termlist_tree {E : Type} (openTL : ℕ → Except E TermListData)
    (docids : List ℕ) : Except (E × List ℕ) (List (ℕ × TermListData)) :=
  buildGo openTL [] docids

/-- The observable outcome of a call to `ESet::Internal::expand`:
a fired debug assertion (contract violation, fail-fast), a propagated
iterator-open failure (carrying the ids of the iterators that were
released during unwinding), or a populated `ESet::Internal`. -/
inductive ExpandOutcome (E : Type) where
  | assertFailed
  | buildFailed (e : E) (released : List ℕ)
  | ok (eset : ESetInternal)
deriving DecidableEq

/-- Embedding of the whole of `ESet::Internal::expand` (esetinternal.cc
lines 89-160).  The database is a function from document id to the
document's term list (or an open failure); `weight` is the external
`ExpandWeight` engine, embedded as a function of the term and its combined
statistics at the merged-stream position (the collect-then-score two-step
of §4.2).  The four `Assert`s at lines 99-104 are embedded as fail-fast
guards. -/
def ESetInternal.expand {E : Type} (self : ESetInternal) (max_esize : ℕ)
    (db : ℕ → Except E TermListData) (rset : List ℕ)
    (edecider : Option (String → Bool)) (weight : String → ℕ → ℚ)
    (min_wt : ℚ) : ExpandOutcome E :=
  if max_esize = 0 then .assertFailed          -- Assert(max_esize)
  else if rset.isEmpty then .assertFailed      -- Assert(!rset.empty())
  else if self.ebound ≠ 0 then .assertFailed   -- Assert(ebound == 0)
  else if self.items ≠ [] then .assertFailed   -- Assert(items.empty())
  else
    match build_termlist_tree db rset with
    | .error (e, released) => .buildFailed e released
    | .ok tls =>
      let stream := (mergeTermLists (tls.map Prod.snd)).map
        (fun p => (p.1, weight p.1 p.2))
      let s := expandLoop edecider max_esize (initState min_wt) stream
      .ok ⟨s.ebound, sortItems s.items⟩

/-- Embedding of `Xapian::ESet`: a handle holding an `ESet::Internal`. -/
structure ESet where
  internal : ESetInternal

/-- `ESet::size()` (lines 191-195): the number of retained items. -/
def ESet.size (e : ESet) : ℕ := e.internal.items.length

/-- `ESet::get_ebound()` (lines 197-201). -/
def ESet.get_ebound (e : ESet) : ℕ := e.internal.ebound

/-- `ESet::get_description()` (lines 203-209): builds `"ESet("` and
appends `')'`, ignoring the contents entirely. -/
def ESet.get_description (_ : ESet) : String :=
  let desc := "ESet("
  desc ++ ")"

/-- `Internal::ExpandTerm::get_description()` (lines 49-58).
`description_append` (unicode/description_append.cc, not present under
src/) appends the term text, escaping unprintable characters; the terms
used in this development are plain printable ASCII, on which it appends
the text unchanged. -/
def ExpandTerm.get_description (e : ExpandTerm) : String :=
  let desc := "ExpandTerm(" ++ toString e.wt
  let desc := desc ++ ", "
  let desc := desc ++ e.term
  desc ++ ")"

/-- `ESet::Internal::get_description()` (lines 162-176): renders the
candidate count and every stored item. -/
def ESetInternal.get_description (self : ESetInternal) : String :=
  let desc := "ESet::Internal(ebound=" ++ toString self.ebound
  let desc := self.items.foldl
    (fun d i => d ++ ", " ++ i.get_description) desc
  desc ++ ")"

/-- Embedding of `Xapian::ESetIterator`: the rank is stored as an offset
from the end of the best-first `items` vector (`off_from_end = 0` is the
end position); `ESetIterator::operator++` (declared in the public header
`xapian/eset.h`, not present under src/ — modelled from the spec's §4.4
iteration protocol) decrements `off_from_end`, so iteration proceeds from
index `0` (best) towards the end of `items`. -/
structure ESetIterator where
  items : List ExpandTerm
  off_from_end : ℕ

/-- `ESetIterator::operator*()` (lines 212-218): the two debug assertions
`Assert(off_from_end != 0)` and `AssertRel(off_from_end, <=, size)` are
embedded as guards returning `none`; otherwise the term of the element at
index `size - off_from_end` is returned. -/
def ESetIterator.star (it : ESetIterator) : Option String :=
  if it.off_from_end = 0 then none
  else if it.items.length < it.off_from_end then none
  else (it.items[it.items.length - it.off_from_end]?).map ExpandTerm.term

/-- `ESetIterator::get_weight()` (lines 220-226), with the same assertion
guards. -/
def ESetIterator.get_weight (it : ESetIterator) : Option ℚ :=
  if it.off_from_end = 0 then none
  else if it.items.length < it.off_from_end then none
  else (it.items[it.items.length - it.off_from_end]?).map ExpandTerm.wt

theorem ExpandTerm.leRefl (a : ExpandTerm) : ExpandTerm.le a a :=
  Or.inr ⟨rfl, le_refl _⟩

theorem ExpandTerm.leTotal (a b : ExpandTerm) :
    ExpandTerm.le a b ∨ ExpandTerm.le b a := IsTotal.total a b

theorem ExpandTerm.leTrans {a b c : ExpandTerm}
    (hab : ExpandTerm.le a b) (hbc : ExpandTerm.le b c) :
    ExpandTerm.le a c := Trans.trans hab hbc

theorem ExpandTerm.leAntisymm {a b : ExpandTerm}
    (hab : ExpandTerm.le a b) (hba : ExpandTerm.le b a) : a = b := by
  rcases hab with h1 | ⟨h1, h1'⟩ <;> rcases hba with h2 | ⟨h2, h2'⟩
  · exact absurd h1 (not_lt_of_lt h2)
  · exact absurd h1 (h2 ▸ lt_irrefl _)
  · exact absurd h2 (h1 ▸ lt_irrefl _)
  · cases a; cases b
    simp only [ExpandTerm.mk.injEq]
    exact ⟨h1, le_antisymm h1' h2'⟩

/-- If `a` is at least as good as `b` and they differ, `a` is strictly
better. -/
theorem ExpandTerm.ltOfLeOfNe {a b : ExpandTerm}
    (hab : ExpandTerm.le a b) (hne : a ≠ b) : ExpandTerm.lt a b := by
  rcases hab with h | ⟨h, h'⟩
  · exact Or.inl h
  · refine Or.inr ⟨h, lt_of_le_of_ne h' ?_⟩
    intro hterm
    exact hne (by cases a; cases b; simp_all)

/-- `le a b` bounds the weights: the worse candidate has the smaller or
equal weight. -/
theorem ExpandTerm.wtLeOfLe {a b : ExpandTerm} (h : ExpandTerm.le a b) :
    b.wt ≤ a.wt := by
  rcases h with h | ⟨h, _⟩
  · exact le_of_lt h
  · exact le_of_eq h.symm

/-- A strictly larger weight makes a strictly better candidate. -/
theorem ExpandTerm.ltOfWtLt {a b : ExpandTerm} (h : b.wt < a.wt) :
    ExpandTerm.lt a b := Or.inl h

theorem worstOf_mem (x : ExpandTerm) (l : List ExpandTerm) :
    worstOf x l ∈ x :: l := by
  induction l generalizing x with
  | nil => simp [worstOf]
  | cons y ys ih =>
    simp only [worstOf]
    by_cases hc : ExpandTerm.le x y
    · simp only [if_pos hc]
      exact List.mem_cons_of_mem _ (ih y)
    · simp only [if_neg hc]
      rcases List.mem_cons.mp (ih x) with h | h
      · rw [h]; exact List.mem_cons_self _ _
      · exact List.mem_cons_of_mem _ (List.mem_cons_of_mem _ h)

theorem le_worstOf (x : ExpandTerm) (l : List ExpandTerm) :
    ∀ z ∈ x :: l, ExpandTerm.le z (worstOf x l) := by
  induction l generalizing x with
  | nil =>
    intro z hz
    simp only [List.mem_singleton] at hz
    subst hz
    simpa [worstOf] using ExpandTerm.leRefl z
  | cons y ys ih =>
    intro z hz
    simp only [worstOf]
    by_cases hc : ExpandTerm.le x y
    · simp only [if_pos hc]
      rcases List.mem_cons.mp hz with rfl | hz
      · exact ExpandTerm.leTrans hc (ih y y (List.mem_cons_self _ _))
      · exact ih y z hz
    · simp only [if_neg hc]
      have hyx : ExpandTerm.le y x := by
        rcases ExpandTerm.leTotal x y with h | h
        · exact absurd h hc
        · exact h
      rcases List.mem_cons.mp hz with rfl | hz
      · exact ih z z (List.mem_cons_self _ _)
      · rcases List.mem_cons.mp hz with rfl | hz
        · exact ExpandTerm.leTrans hyx (ih x x (List.mem_cons_self _ _))
        · exact ih x z (List.mem_cons_of_mem _ hz)

theorem worstList_mem {l : List ExpandTerm} (h : l ≠ []) (fb : ExpandTerm) :
    worstList l fb ∈ l := by
  cases l with
  | nil => exact absurd rfl h
  | cons x xs => exact worstOf_mem x xs

theorem le_worstList {l : List ExpandTerm} (fb : ExpandTerm) :
    ∀ z ∈ l, ExpandTerm.le z (worstList l fb) := by
  cases l with
  | nil => intro z hz; simp at hz
  | cons x xs => exact le_worstOf x xs

theorem worstWt_eq {l : List ExpandTerm} (h : l ≠ []) (fb : ExpandTerm)
    (f : ℚ) : worstWt l f = (worstList l fb).wt := by
  cases l with
  | nil => exact absurd rfl h
  | cons x xs => rfl

/-- The ghost instrumentation is invisible: projecting it away yields
exactly the state the real loop step computes. -/
theorem proj_expandStepG (ed : Option (String → Bool)) (K : ℕ)
    (s : EStateG) (t : String) (w : ℚ) :
    (expandStepG ed K s t w).proj = expandStep ed K s.proj t w := by
  simp only [expandStepG, expandStep, EStateG.proj]
  by_cases h1 : acceptsOpt ed t = false
  · simp [h1]
  · simp only [h1, if_false]
    by_cases h2 : w ≤ s.min_wt
    · simp [h2]
    · simp only [h2, if_false]
      by_cases h3 : K < s.items.length + 1 <;> simp [h3]

/-- The instrumented loop projects to the real loop. -/
theorem proj_expandLoopG (ed : Option (String → Bool)) (K : ℕ)
    (stream : List (String × ℚ)) (s : EStateG) :
    (expandLoopG ed K s stream).proj = expandLoop ed K s.proj stream := by
  induction stream generalizing s with
  | nil => rfl
  | cons tw tws ih =>
    show (expandLoopG ed K (expandStepG ed K s tw.1 tw.2) tws).proj
      = expandLoop ed K (expandStep ed K s.proj tw.1 tw.2) tws
    rw [ih, proj_expandStepG]

/-- One step extends the ghost `accepted` list either not at all or by
exactly the current candidate. -/
theorem accepted_expandStepG (ed : Option (String → Bool)) (K : ℕ)
    (s : EStateG) (t : String) (w : ℚ) :
    (expandStepG ed K s t w).accepted = s.accepted ∨
    (expandStepG ed K s t w).accepted = s.accepted ++ [⟨w, t⟩] := by
  simp only [expandStepG]
  by_cases h1 : acceptsOpt ed t = false
  · simp [h1]
  · simp only [h1, if_false]
    by_cases h2 : w ≤ s.min_wt
    · simp [h2]
    · simp only [h2, if_false]
      by_cases h3 : K < s.items.length + 1 <;> simp [h3]

/-- The loop invariant is preserved by a single candidate step, provided
the candidate's term is fresh (the merged stream yields each distinct
term at most once). -/
theorem expandInv_step (ed : Option (String → Bool)) (K : ℕ) (hK : 1 ≤ K)
    (m0 : ℚ) (s : EStateG) (t : String) (w : ℚ)
    (hInv : ExpandInv K m0 s)
    (hfresh : ∀ z ∈ s.accepted, z.term ≠ t) :
    ExpandInv K m0 (expandStepG ed K s t w) := by
  obtain ⟨hlen, hsub, hnd, hrej, hm0, hitems⟩ := hInv
  by_cases h1 : acceptsOpt ed t = false
  · simp only [expandStepG, if_pos h1]
    exact ⟨hlen, hsub, hnd, hrej, hm0, hitems⟩
  by_cases h2 : w ≤ s.min_wt
  · simp only [expandStepG, if_neg h1, if_pos h2]
    exact ⟨hlen, hsub, hnd, hrej, hm0, hitems⟩
  have hw : s.min_wt < w := not_le.mp h2
  have hndacc :
      ((s.accepted ++ [(⟨w, t⟩ : ExpandTerm)]).map ExpandTerm.term).Nodup := by
    rw [List.map_append]
    refine List.Nodup.append hnd (by simp) ?_
    intro a ha hb
    simp only [List.map_cons, List.map_nil, List.mem_singleton] at hb
    subst hb
    obtain ⟨z, hz, hzt⟩ := List.mem_map.mp ha
    exact hfresh z hz hzt
  have hsub1 : (s.items ++ [(⟨w, t⟩ : ExpandTerm)]).Sublist
      (s.accepted ++ [(⟨w, t⟩ : ExpandTerm)]) :=
    hsub.append (List.Sublist.refl _)
  by_cases h3 : K < (s.items ++ [(⟨w, t⟩ : ExpandTerm)]).length
  · -- overflow: evict the worst element and raise the threshold
    simp only [expandStepG, if_neg h1, if_neg h2, if_pos h3]
    have hitemsK : s.items.length ≤ K := by
      rw [hlen]; exact Nat.min_le_left _ _
    have hKitems : s.items.length = K := by
      simp only [List.length_append, List.length_cons, List.length_nil] at h3
      omega
    have hKacc : K ≤ s.accepted.length := by
      rw [hKitems] at hlen
      exact min_eq_left_iff.mp hlen.symm
    set x : ExpandTerm := ⟨w, t⟩ with hxdef
    set items1 := s.items ++ [x] with hi1def
    set w0 := worstList items1 x with hw0def
    set items2 := items1.erase w0 with hi2def
    have hx_mem : x ∈ items1 := by simp [hi1def]
    have hne1 : items1 ≠ [] := by simp [hi1def]
    have hw0mem : w0 ∈ items1 := worstList_mem hne1 x
    have hle1 : ∀ z ∈ items1, ExpandTerm.le z w0 := le_worstList x
    have hnd1 : items1.Nodup :=
      ((hsub1.map ExpandTerm.term).nodup hndacc).of_map
    have hlen2 : items2.length = K := by
      rw [hi2def, List.length_erase_of_mem hw0mem, hi1def]
      simp only [List.length_append, List.length_cons, List.length_nil]
      omega
    have hne2 : items2 ≠ [] := by
      intro h
      rw [h] at hlen2
      simp only [List.length_nil] at hlen2
      omega
    set w' := worstList items2 x with hw'def
    have hw'mem2 : w' ∈ items2 := worstList_mem hne2 x
    have hw'mem1 : w' ∈ items1 := List.mem_of_mem_erase hw'mem2
    have hwt' : worstWt items2 s.min_wt = w'.wt := worstWt_eq hne2 x _
    have hmem1_cases : ∀ z ∈ items1, z ∈ s.items ∨ z = x := by
      intro z hz
      rcases List.mem_append.mp hz with h | h
      · exact Or.inl h
      · exact Or.inr (by simpa using h)
    have hmin_le_w' : s.min_wt ≤ w'.wt := by
      rcases hmem1_cases w' hw'mem1 with h | h
      · exact (hitems w' h).1
      · rw [h]; exact le_of_lt hw
    refine ⟨?_, ?_, hndacc, ?_, ?_, ?_⟩
    · rw [hlen2]
      simp only [List.length_append, List.length_cons, List.length_nil]
      rw [Nat.min_eq_left (by omega)]
    · exact (List.erase_sublist _ _).trans hsub1
    · intro y hy hyn
      by_cases hyw : y = w0
      · subst hyw
        constructor
        · intro z hz
          have hz1 : z ∈ items1 := List.mem_of_mem_erase hz
          have hzne : z ≠ w0 := ((hnd1.mem_erase_iff).mp hz).1
          exact ExpandTerm.ltOfLeOfNe (hle1 z hz1) hzne
        · rw [hwt']
          exact ExpandTerm.wtLeOfLe (hle1 w' hw'mem1)
      · have hyn1 : y ∉ items1 := by
          intro hy1
          exact hyn ((List.mem_erase_of_ne hyw).mpr hy1)
        have hyacc : y ∈ s.accepted := by
          rcases List.mem_append.mp hy with h | h
          · exact h
          · exfalso
            simp only [List.mem_singleton] at h
            exact hyn1 (h ▸ hx_mem)
        have hyni : y ∉ s.items := fun hc => hyn1 (List.mem_append_left _ hc)
        obtain ⟨hworse, hwtle⟩ := hrej y hyacc hyni
        constructor
        · intro z hz
          rcases hmem1_cases z (List.mem_of_mem_erase hz) with h | h
          · exact hworse z h
          · rw [h]
            exact ExpandTerm.ltOfWtLt (lt_of_le_of_lt hwtle hw)
        · rw [hwt']
          exact le_trans hwtle hmin_le_w'
    · rw [hwt']
      exact le_trans hm0 hmin_le_w'
    · intro z hz
      refine ⟨?_, ?_⟩
      · rw [hwt']
        exact ExpandTerm.wtLeOfLe (le_worstList x z hz)
      · rcases hmem1_cases z (List.mem_of_mem_erase hz) with h | h
        · exact (hitems z h).2
        · rw [h]
          exact lt_of_le_of_lt hm0 hw
  · -- no overflow: simply append
    simp only [expandStepG, if_neg h1, if_neg h2, if_neg h3]
    have hlt : s.items.length + 1 ≤ K := by
      simp only [not_lt, List.length_append, List.length_cons,
        List.length_nil] at h3
      omega
    have hacc_len : s.accepted.length = s.items.length := by
      rcases Nat.le_total K s.accepted.length with hc | hc
      · rw [Nat.min_eq_left hc] at hlen; omega
      · rw [Nat.min_eq_right hc] at hlen; omega
    have hacc_eq : s.items = s.accepted := hsub.eq_of_length (by omega)
    refine ⟨?_, hsub1, hndacc, ?_, hm0, ?_⟩
    · simp only [List.length_append, List.length_cons, List.length_nil]
      rw [Nat.min_eq_right (by omega)]
      omega
    · intro y hy hyn
      exfalso
      rcases List.mem_append.mp hy with h | h
      · refine hyn (List.mem_append_left _ ?_)
        rw [hacc_eq]
        exact h
      · simp only [List.mem_singleton] at h
        exact hyn (h ▸ List.mem_append_right _ (by simp))
    · intro z hz
      rcases List.mem_append.mp hz with h | h
      · exact hitems z h
      · simp only [List.mem_singleton] at h
        subst h
        exact ⟨le_of_lt hw, lt_of_le_of_lt hm0 hw⟩

/-- The loop invariant is preserved across the whole stream, provided the
stream's terms are pairwise distinct and fresh for the accumulated
state. -/
theorem expandInv_loop (ed : Option (String → Bool)) (K : ℕ) (hK : 1 ≤ K)
    (m0 : ℚ) (stream : List (String × ℚ)) (s : EStateG)
    (hInv : ExpandInv K m0 s)
    (hnd : (stream.map Prod.fst).Nodup)
    (hfresh : ∀ z ∈ s.accepted, z.term ∉ stream.map Prod.fst) :
    ExpandInv K m0 (expandLoopG ed K s stream) := by
  induction stream generalizing s with
  | nil => exact hInv
  | cons tw tws ih =>
    show ExpandInv K m0 (expandLoopG ed K (expandStepG ed K s tw.1 tw.2) tws)
    have hfresh1 : ∀ z ∈ s.accepted, z.term ≠ tw.1 := by
      intro z hz hzt
      exact hfresh z hz (by simp [hzt])
    have hstep := expandInv_step ed K hK m0 s tw.1 tw.2 hInv hfresh1
    simp only [List.map_cons, List.nodup_cons] at hnd
    have hfresh' : ∀ z ∈ (expandStepG ed K s tw.1 tw.2).accepted,
        z.term ∉ tws.map Prod.fst := by
      intro z hz
      rcases accepted_expandStepG ed K s tw.1 tw.2 with hacc | hacc
      · rw [hacc] at hz
        intro hmem
        exact hfresh z hz (by simp [hmem])
      · rw [hacc] at hz
        rcases List.mem_append.mp hz with h | h
        · intro hmem
          exact hfresh z h (by simp [hmem])
        · simp only [List.mem_singleton] at h
          subst h
          simpa using hnd.1
    exact ih (expandStepG ed K s tw.1 tw.2) hstep hnd.2 hfresh'

/-- The invariant holds at the loop's start. -/
theorem expandInv_init (K : ℕ) (m0 : ℚ) : ExpandInv K m0 (initStateG m0) := by
  refine ⟨by simp [initStateG], by simp [initStateG], by simp [initStateG],
    ?_, le_refl _, ?_⟩ <;> intro z hz <;> simp [initStateG] at hz

/-- The invariant at the end of any run from the initial state. -/
theorem expandInv_run (ed : Option (String → Bool)) (K : ℕ) (hK : 1 ≤ K)
    (m0 : ℚ) (stream : List (String × ℚ))
    (hnd : (stream.map Prod.fst).Nodup) :
    ExpandInv K m0 (expandLoopG ed K (initStateG m0) stream) :=
  expandInv_loop ed K hK m0 stream _ (expandInv_init K m0) hnd
    (by intro z hz; simp [initStateG] at hz)

/-- Weight bookkeeping needs no distinctness: one step keeps the threshold
at or above its starting value and keeps every retained weight strictly
above it. -/
theorem minwt_step (ed : Option (String → Bool)) (K : ℕ) (m0 : ℚ)
    (s : EState) (t : String) (w : ℚ)
    (h : m0 ≤ s.min_wt ∧ ∀ z ∈ s.items, m0 < z.wt) :
    m0 ≤ (expandStep ed K s t w).min_wt ∧
      ∀ z ∈ (expandStep ed K s t w).items, m0 < z.wt := by
  obtain ⟨hm0, hitems⟩ := h
  by_cases h1 : acceptsOpt ed t = false
  · simp only [expandStep, if_pos h1]
    exact ⟨hm0, hitems⟩
  by_cases h2 : w ≤ s.min_wt
  · simp only [expandStep, if_neg h1, if_pos h2]
    exact ⟨hm0, hitems⟩
  have hw : s.min_wt < w := not_le.mp h2
  have hmem1 : ∀ z ∈ s.items ++ [(⟨w, t⟩ : ExpandTerm)], m0 < z.wt := by
    intro z hz
    rcases List.mem_append.mp hz with h | h
    · exact hitems z h
    · simp only [List.mem_singleton] at h
      subst h
      exact lt_of_le_of_lt hm0 hw
  by_cases h3 : K < (s.items ++ [(⟨w, t⟩ : ExpandTerm)]).length
  · simp only [expandStep, if_neg h1, if_neg h2, if_pos h3]
    set x : ExpandTerm := ⟨w, t⟩ with hxdef
    set items1 := s.items ++ [x] with hi1def
    set items2 := items1.erase (worstList items1 x) with hi2def
    have hsub2 : ∀ z ∈ items2, z ∈ items1 :=
      fun z hz => List.mem_of_mem_erase hz
    constructor
    · by_cases hne2 : items2 = []
      · rw [hne2]
        simpa [worstWt] using hm0
      · rw [worstWt_eq hne2 x]
        exact le_of_lt (hmem1 _ (hsub2 _ (worstList_mem hne2 x)))
    · intro z hz
      exact hmem1 z (hsub2 z hz)
  · simp only [expandStep, if_neg h1, if_neg h2, if_neg h3]
    exact ⟨hm0, hmem1⟩

/-- `minwt_step`, folded over a whole stream. -/
theorem minwt_loop (ed : Option (String → Bool)) (K : ℕ) (m0 : ℚ)
    (stream : List (String × ℚ)) (s : EState)
    (h : m0 ≤ s.min_wt ∧ ∀ z ∈ s.items, m0 < z.wt) :
    m0 ≤ (expandLoop ed K s stream).min_wt ∧
      ∀ z ∈ (expandLoop ed K s stream).items, m0 < z.wt := by
  induction stream generalizing s with
  | nil => exact h
  | cons tw tws ih =>
    exact ih (expandStep ed K s tw.1 tw.2) (minwt_step ed K m0 s tw.1 tw.2 h)

/-- One step increments `ebound` exactly when the decider accepts the
term, independently of the threshold test and of the selector. -/
theorem ebound_expandStep (ed : Option (String → Bool)) (K : ℕ)
    (s : EState) (t : String) (w : ℚ) :
    (expandStep ed K s t w).ebound =
      s.ebound + (if acceptsOpt ed t then 1 else 0) := by
  by_cases h1 : acceptsOpt ed t = false
  · simp [expandStep, if_pos h1, h1]
  · have h1' : acceptsOpt ed t = true := by
      revert h1; cases acceptsOpt ed t <;> simp
    by_cases h2 : w ≤ s.min_wt
    · simp [expandStep, if_neg h1, if_pos h2, h1']
    · by_cases h3 : K < s.items.length + 1
      · simp [expandStep, if_neg h1, if_neg h2, h3, h1']
      · simp [expandStep, if_neg h1, if_neg h2, h3, h1']

/-- `ebound` after the loop counts exactly the decider-accepted stream
elements (no early exit: the whole stream contributes). -/
theorem ebound_expandLoop (ed : Option (String → Bool)) (K : ℕ)
    (stream : List (String × ℚ)) : ∀ s : EState,
    (expandLoop ed K s stream).ebound =
      s.ebound + stream.countP (fun tw => acceptsOpt ed tw.1) := by
  induction stream with
  | nil => intro s; simp [expandLoop]
  | cons tw tws ih =>
    intro s
    show (expandLoop ed K (expandStep ed K s tw.1 tw.2) tws).ebound = _
    rw [ih, ebound_expandStep, List.countP_cons]
    by_cases h : acceptsOpt ed tw.1 <;> simp [h] <;> omega

/-- A step never lets the retained collection outgrow the candidate
count. -/
theorem itemslen_le_ebound_step (ed : Option (String → Bool)) (K : ℕ)
    (s : EState) (t : String) (w : ℚ)
    (h : s.items.length ≤ s.ebound) :
    (expandStep ed K s t w).items.length ≤ (expandStep ed K s t w).ebound := by
  by_cases h1 : acceptsOpt ed t = false
  · simpa [expandStep, if_pos h1] using h
  by_cases h2 : w ≤ s.min_wt
  · simp only [expandStep, if_neg h1, if_pos h2]
    omega
  by_cases h3 : K < (s.items ++ [(⟨w, t⟩ : ExpandTerm)]).length
  · simp only [expandStep, if_neg h1, if_neg h2, if_pos h3]
    have hne1 : (s.items ++ [(⟨w, t⟩ : ExpandTerm)]) ≠ [] := by simp
    have hw0mem := worstList_mem hne1 (⟨w, t⟩ : ExpandTerm)
    rw [List.length_erase_of_mem hw0mem]
    simp only [List.length_append, List.length_cons, List.length_nil]
    omega
  · simp only [expandStep, if_neg h1, if_neg h2, if_neg h3]
    simp only [List.length_append, List.length_cons, List.length_nil]
    omega

/-- `itemslen_le_ebound_step`, folded over a whole stream. -/
theorem itemslen_le_ebound_loop (ed : Option (String → Bool)) (K : ℕ)
    (stream : List (String × ℚ)) (s : EState)
    (h : s.items.length ≤ s.ebound) :
    (expandLoop ed K s stream).items.length ≤
      (expandLoop ed K s stream).ebound := by
  induction stream generalizing s with
  | nil => exact h
  | cons tw tws ih =>
    exact ih (expandStep ed K s tw.1 tw.2)
      (itemslen_le_ebound_step ed K s tw.1 tw.2 h)

/-- If the decider rejects every stream element, the loop is a no-op. -/
theorem expandLoop_all_rejected (ed : Option (String → Bool)) (K : ℕ)
    (stream : List (String × ℚ)) (s : EState)
    (h : ∀ tw ∈ stream, acceptsOpt ed tw.1 = false) :
    expandLoop ed K s stream = s := by
  induction stream generalizing s with
  | nil => rfl
  | cons tw tws ih =>
    show expandLoop ed K (expandStep ed K s tw.1 tw.2) tws = s
    rw [show expandStep ed K s tw.1 tw.2 = s by
      simp only [expandStep, if_pos (h tw (List.mem_cons_self _ _))]]
    exact ih s (fun x hx => h x (List.mem_cons_of_mem _ hx))

/-- The ghost run and the real run hold the same items. -/
theorem items_expandLoopG (ed : Option (String → Bool)) (K : ℕ) (m0 : ℚ)
    (stream : List (String × ℚ)) :
    (expandLoopG ed K (initStateG m0) stream).items =
      (expandLoop ed K (initState m0) stream).items := by
  have h := proj_expandLoopG ed K stream (initStateG m0)
  have : (expandLoopG ed K (initStateG m0) stream).proj.items =
      (expandLoop ed K (initState m0) stream).items := by rw [h]; rfl
  exact this

/-- C1: for every run of `expand` with `K ≥ 1` over a merged stream (whose
terms are pairwise distinct, as the merger guarantees), at every loop
boundary — after processing any prefix `p` of the stream — the selector
holds at most `K` candidate descriptors, and they are exactly the best
accepted candidates seen so far under the total order; in particular the
final (and sorted) result holds at most `K` items. -/
theorem claim_C1 (ed : Option (String → Bool)) (K : ℕ) (m0 : ℚ)
    (p q : List (String × ℚ)) (hK : 1 ≤ K)
    (hnd : ((p ++ q).map Prod.fst).Nodup) :
    (expandLoopG ed K (initStateG m0) p).items.length ≤ K ∧
    isBestK K (expandLoopG ed K (initStateG m0) p).accepted
      (expandLoopG ed K (initStateG m0) p).items ∧
    (expandLoop ed K (initState m0) (p ++ q)).items.length ≤ K ∧
    (expandResult ed K m0 (p ++ q)).2.length ≤ K := by
  have hndp : (p.map Prod.fst).Nodup := by
    rw [List.map_append] at hnd
    exact (List.nodup_append.mp hnd).1
  obtain ⟨hlen, hsub, hndacc, hrej, hm0, hitems⟩ :=
    expandInv_run ed K hK m0 p hndp
  obtain ⟨hlenF, hsubF, _, _, _, _⟩ := expandInv_run ed K hK m0 (p ++ q) hnd
  refine ⟨?_, ⟨hlen, fun z hz => hsub.subset hz,
    fun y hy hyn z hz => (hrej y hy hyn).1 z hz⟩, ?_, ?_⟩
  · rw [hlen]; exact Nat.min_le_left _ _
  · rw [← items_expandLoopG ed K m0 (p ++ q), hlenF]
    exact Nat.min_le_left _ _
  · show (sortItems (expandLoop ed K (initState m0) (p ++ q)).items).length ≤ K
    rw [sortItems, List.length_insertionSort,
      ← items_expandLoopG ed K m0 (p ++ q), hlenF]
    exact Nat.min_le_left _ _

/-- Witness for C1 at a concrete run: stream `bird:2, cat:4` then `dog:1`
with `K = 2`. -/
theorem claim_C1_witness :
    (expandLoopG none 2 (initStateG 0)
      [("bird", 2), ("cat", 4)]).items.length ≤ 2 ∧
    (expandResult none 2 0
      [("bird", 2), ("cat", 4), ("dog", 1)]).2.length ≤ 2 := by
  have h := claim_C1 none 2 0 [("bird", 2), ("cat", 4)] [("dog", 1)]
    (by decide) (by decide)
  exact ⟨h.1, h.2.2.2⟩

/-- C2: the acceptance test is strictly-greater-than — a candidate whose
weight equals the current threshold is counted but rejected (items and
threshold unchanged); the threshold starts at the caller-supplied
`min_wt`; after an overflow eviction the threshold is the weight of the
new worst retained element; and consequently no item whose weight is at
or below the initial `min_wt` (in particular, exactly `min_wt`) ever
appears in the result. -/
theorem claim_C2 (ed : Option (String → Bool)) (K : ℕ) (m0 : ℚ)
    (stream : List (String × ℚ)) :
    (∀ (s : EState) (t : String) (w : ℚ),
       acceptsOpt ed t ≠ false → w = s.min_wt →
       (expandStep ed K s t w).items = s.items ∧
       (expandStep ed K s t w).min_wt = s.min_wt ∧
       (expandStep ed K s t w).ebound = s.ebound + 1) ∧
    (initState m0).min_wt = m0 ∧
    (∀ (s : EState) (t : String) (w : ℚ) (fb : ExpandTerm),
       acceptsOpt ed t ≠ false → s.min_wt < w → K < s.items.length + 1 →
       (expandStep ed K s t w).items ≠ [] →
       (expandStep ed K s t w).min_wt =
         (worstList (expandStep ed K s t w).items fb).wt) ∧
    (∀ z ∈ (expandResult ed K m0 stream).2, m0 < z.wt) := by
  refine ⟨?_, rfl, ?_, ?_⟩
  · intro s t w h1 h2
    have h2' : w ≤ s.min_wt := le_of_eq h2
    refine ⟨?_, ?_, ?_⟩ <;> simp [expandStep, if_neg h1, if_pos h2']
  · intro s t w fb h1 h2 h3 hne
    have h2' : ¬ w ≤ s.min_wt := not_le.mpr h2
    have h3' : K < (s.items ++ [(⟨w, t⟩ : ExpandTerm)]).length := by
      simpa using h3
    have hstep :
        (expandStep ed K s t w).items =
          (s.items ++ [(⟨w, t⟩ : ExpandTerm)]).erase
            (worstList (s.items ++ [(⟨w, t⟩ : ExpandTerm)]) ⟨w, t⟩) ∧
        (expandStep ed K s t w).min_wt =
          worstWt ((s.items ++ [(⟨w, t⟩ : ExpandTerm)]).erase
            (worstList (s.items ++ [(⟨w, t⟩ : ExpandTerm)]) ⟨w, t⟩))
            s.min_wt := by
      constructor <;> simp [expandStep, if_neg h1, if_neg h2', h3]
    rw [hstep.1] at hne
    rw [hstep.2, hstep.1]
    exact worstWt_eq hne fb _
  · intro z hz
    have hz' : z ∈ (expandLoop ed K (initState m0) stream).items := by
      have : (expandResult ed K m0 stream).2 =
          sortItems (expandLoop ed K (initState m0) stream).items := rfl
      rw [this, sortItems] at hz
      exact (List.perm_insertionSort ExpandTerm.le _).subset hz
    exact (minwt_loop ed K m0 stream (initState m0)
      ⟨le_refl _, by intro z hz; simp [initState] at hz⟩).2 z hz'

/-- Witness for C2 at the threshold boundary: with `min_wt = 2` a
candidate of weight exactly `2` is rejected while the run keeps only
strictly heavier items. -/
theorem claim_C2_witness :
    (expandStep none 3 (initState 2) "tie" 2).items = (initState 2).items ∧
    (∀ z ∈ (expandResult none 3 2 [("tie", 2), ("big", 5)]).2,
      (2 : ℚ) < z.wt) := by
  have h := claim_C2 none 3 2 [("tie", 2), ("big", 5)]
  exact ⟨(h.1 (initState 2) "tie" 2 (by decide) rfl).1, h.2.2.2⟩

/-- For a run over a distinct-term stream, the retained items carry
pairwise distinct terms. -/
theorem run_items_term_nodup (ed : Option (String → Bool)) (K : ℕ)
    (m0 : ℚ) (stream : List (String × ℚ)) (hK : 1 ≤ K)
    (hnd : (stream.map Prod.fst).Nodup) :
    ((expandLoop ed K (initState m0) stream).items.map
      ExpandTerm.term).Nodup := by
  obtain ⟨_, hsub, hndacc, _, _, _⟩ := expandInv_run ed K hK m0 stream hnd
  rw [← items_expandLoopG ed K m0 stream]
  exact (hsub.map ExpandTerm.term).nodup hndacc

/-- C3: after `expand` completes, the retained items are in best-first
order — for every pair of consecutive items `a, b`, either
`a.wt > b.wt`, or `a.wt = b.wt` and `a.term < b.term` lexicographically. -/
theorem claim_C3 (ed : Option (String → Bool)) (K : ℕ) (m0 : ℚ)
    (stream : List (String × ℚ)) (hK : 1 ≤ K)
    (hnd : (stream.map Prod.fst).Nodup) (i : ℕ)
    (hi : i + 1 < (expandResult ed K m0 stream).2.length) :
    (((expandResult ed K m0 stream).2.get ⟨i + 1, hi⟩).wt <
       ((expandResult ed K m0 stream).2.get ⟨i, Nat.lt_of_succ_lt hi⟩).wt) ∨
    (((expandResult ed K m0 stream).2.get ⟨i, Nat.lt_of_succ_lt hi⟩).wt =
       ((expandResult ed K m0 stream).2.get ⟨i + 1, hi⟩).wt ∧
     ((expandResult ed K m0 stream).2.get ⟨i, Nat.lt_of_succ_lt hi⟩).term <
       ((expandResult ed K m0 stream).2.get ⟨i + 1, hi⟩).term) := by
  have hsorted : List.Sorted ExpandTerm.le ((expandResult ed K m0 stream).2) :=
    List.sorted_insertionSort ExpandTerm.le _
  have hperm : List.Perm ((expandResult ed K m0 stream).2)
      ((expandLoop ed K (initState m0) stream).items) :=
    List.perm_insertionSort ExpandTerm.le _
  have hndr : ((expandResult ed K m0 stream).2).Nodup := by
    have h1 := run_items_term_nodup ed K m0 stream hK hnd
    have h2 : ((expandResult ed K m0 stream).2.map ExpandTerm.term).Nodup :=
      ((hperm.map ExpandTerm.term).nodup_iff).mpr h1
    exact h2.of_map
  have hle : ExpandTerm.le
      ((expandResult ed K m0 stream).2.get ⟨i, Nat.lt_of_succ_lt hi⟩)
      ((expandResult ed K m0 stream).2.get ⟨i + 1, hi⟩) :=
    hsorted.rel_get_of_lt (Fin.mk_lt_mk.mpr (Nat.lt_succ_self i))
  have hne : ((expandResult ed K m0 stream).2.get ⟨i, Nat.lt_of_succ_lt hi⟩) ≠
      ((expandResult ed K m0 stream).2.get ⟨i + 1, hi⟩) := by
    intro heq
    have := (hndr.get_inj_iff).mp heq
    simp only [Fin.mk.injEq] at this
    omega
  exact ExpandTerm.ltOfLeOfNe hle hne

/-- Witness for C3 at the concrete run `bird:2, cat:4, dog:1`, `K = 2`:
the two retained items are ordered best-first. -/
theorem claim_C3_witness :
    (((expandResult none 2 0
        [("bird", 2), ("cat", 4), ("dog", 1)]).2.get ⟨1, by decide⟩).wt <
       ((expandResult none 2 0
        [("bird", 2), ("cat", 4), ("dog", 1)]).2.get ⟨0, by decide⟩).wt) ∨
    (((expandResult none 2 0
        [("bird", 2), ("cat", 4), ("dog", 1)]).2.get ⟨0, by decide⟩).wt =
       ((expandResult none 2 0
        [("bird", 2), ("cat", 4), ("dog", 1)]).2.get ⟨1, by decide⟩).wt ∧
     ((expandResult none 2 0
        [("bird", 2), ("cat", 4), ("dog", 1)]).2.get ⟨0, by decide⟩).term <
       ((expandResult none 2 0
        [("bird", 2), ("cat", 4), ("dog", 1)]).2.get ⟨1, by decide⟩).term) :=
  claim_C3 none 2 0 [("bird", 2), ("cat", 4), ("dog", 1)]
    (by decide) (by decide) 0 (by decide)

/-- C4: `ebound` counts exactly the decider-accepted terms of the whole
merged stream — the loop never exits early at `K`, decider-rejected terms
are not counted, the count dominates the result size, and if the decider
rejects everything both the count and the result are empty. -/
theorem claim_C4 (ed : Option (String → Bool)) (K : ℕ) (m0 : ℚ)
    (stream : List (String × ℚ)) :
    (expandResult ed K m0 stream).1 =
      stream.countP (fun tw => acceptsOpt ed tw.1) ∧
    (expandResult ed K m0 stream).2.length ≤
      (expandResult ed K m0 stream).1 ∧
    ((∀ tw ∈ stream, acceptsOpt ed tw.1 = false) →
      (expandResult ed K m0 stream).2.length = 0 ∧
        (expandResult ed K m0 stream).1 = 0) := by
  refine ⟨?_, ?_, ?_⟩
  · show (expandLoop ed K (initState m0) stream).ebound = _
    rw [ebound_expandLoop]
    simp [initState]
  · show (sortItems (expandLoop ed K (initState m0) stream).items).length ≤
      (expandLoop ed K (initState m0) stream).ebound
    rw [sortItems, List.length_insertionSort]
    exact itemslen_le_ebound_loop ed K stream (initState m0) (le_refl _)
  · intro h
    have hloop := expandLoop_all_rejected ed K stream (initState m0) h
    constructor
    · show (sortItems (expandLoop ed K (initState m0) stream).items).length = 0
      rw [hloop]
      rfl
    · show (expandLoop ed K (initState m0) stream).ebound = 0
      rw [hloop]
      rfl

/-- Witness for C4: a decider that rejects everything yields an empty
result and a zero candidate count. -/
theorem claim_C4_witness :
    (expandResult (some fun _ => false) 2 0 [("a", 1), ("b", 3)]).2.length = 0 ∧
    (expandResult (some fun _ => false) 2 0 [("a", 1), ("b", 3)]).1 = 0 :=
  (claim_C4 (some fun _ => false) 2 0 [("a", 1), ("b", 3)]).2.2 (by decide)

/-- C9: once the retained collection has ever exceeded `K` (equivalently,
once more than `K` candidates have been accepted), the size snaps back to
exactly `K` after each overflow and stays there — the final result holds
exactly `K` items, not merely at most `K`. -/
theorem claim_C9 (ed : Option (String → Bool)) (K : ℕ) (m0 : ℚ)
    (stream : List (String × ℚ)) (hK : 1 ≤ K)
    (hnd : (stream.map Prod.fst).Nodup)
    (hover : K <
      (expandLoopG ed K (initStateG m0) stream).accepted.length) :
    (expandLoop ed K (initState m0) stream).items.length = K ∧
    (expandResult ed K m0 stream).2.length = K ∧
    (∀ p q, stream = p ++ q →
       K ≤ (expandLoopG ed K (initStateG m0) p).accepted.length →
       (expandLoopG ed K (initStateG m0) p).items.length = K) := by
  obtain ⟨hlen, _, _, _, _, _⟩ := expandInv_run ed K hK m0 stream hnd
  have hfull : (expandLoop ed K (initState m0) stream).items.length = K := by
    rw [← items_expandLoopG ed K m0 stream, hlen]
    exact Nat.min_eq_left (le_of_lt hover)
  refine ⟨hfull, ?_, ?_⟩
  · show (sortItems (expandLoop ed K (initState m0) stream).items).length = K
    rw [sortItems, List.length_insertionSort]
    exact hfull
  · intro p q hpq hKp
    subst hpq
    have hndp : (p.map Prod.fst).Nodup := by
      rw [List.map_append] at hnd
      exact (List.nodup_append.mp hnd).1
    obtain ⟨hlenp, _, _, _, _, _⟩ := expandInv_run ed K hK m0 p hndp
    rw [hlenp]
    exact Nat.min_eq_left hKp

/-- Witness for C9: the run `bird:2, cat:4, dog:1` with `K = 2` accepts
three candidates, so the final size is exactly `2`. -/
theorem claim_C9_witness :
    (expandLoop none 2 (initState 0)
      [("bird", 2), ("cat", 4), ("dog", 1)]).items.length = 2 ∧
    (expandResult none 2 0
      [("bird", 2), ("cat", 4), ("dog", 1)]).2.length = 2 := by
  have h := claim_C9 none 2 0 [("bird", 2), ("cat", 4), ("dog", 1)]
    (by decide) (by decide) (by decide)
  exact ⟨h.1, h.2.1⟩

/-- Unwinding behaviour of the construction loop: if every document in
`p` opens successfully and `d` fails, the failure carries exactly the
previously opened iterators (those accumulated plus those of `p`), in
order. -/
theorem buildGo_fail {E : Type} (db : ℕ → Except E TermListData)
    (q : List ℕ) (d : ℕ) (e : E) (hfail : db d = .error e) :
    ∀ (p : List ℕ) (acc : List (ℕ × TermListData)),
      (∀ x ∈ p, (db x).isOk = true) →
      buildGo db acc (p ++ d :: q) = .error (e, acc.map Prod.fst ++ p) := by
  intro p
  induction p with
  | nil =>
    intro acc _
    simp only [List.nil_append, buildGo, hfail, List.append_nil]
  | cons x p' ih =>
    intro acc hopen
    have hx := hopen x (List.mem_cons_self _ _)
    rcases hdx : db x with e' | tl
    · rw [hdx] at hx
      simp [Except.isOk, Except.toBool] at hx
    · show buildGo db acc (x :: (p' ++ d :: q)) = _
      simp only [buildGo, hdx]
      rw [ih (acc ++ [(x, tl)])
        (fun y hy => hopen y (List.mem_cons_of_mem _ hy))]
      simp

/-- C5: if opening the term iterator of document `d` fails while
iterators for the documents of `p` were already opened, every one of
those earlier iterators is released exactly once (the failure carries
exactly the list `p`, duplicate-free for a set-valued reference set)
before the failure propagates, and `expand` yields no populated result. -/
theorem claim_C5 {E : Type} (db : ℕ → Except E TermListData)
    (p q : List ℕ) (d : ℕ) (e : E) (max_esize : ℕ)
    (ed : Option (String → Bool)) (weight : String → ℕ → ℚ) (m0 : ℚ)
    (self : ESetInternal) (hK : max_esize ≠ 0)
    (hself1 : self.ebound = 0) (hself2 : self.items = [])
    (hopen : ∀ x ∈ p, (db x).isOk = true) (hfail : db d = .error e)
    (hnd : (p ++ d :: q).Nodup) :
    build_termlist_tree db (p ++ d :: q) = .error (e, p) ∧
    p.Nodup ∧
    ESetInternal.expand self max_esize db (p ++ d :: q) ed weight m0 =
      .buildFailed e p := by
  have hbuild : build_termlist_tree db (p ++ d :: q) = .error (e, p) := by
    rw [build_termlist_tree, buildGo_fail db q d e hfail p [] hopen]
    simp
  refine ⟨hbuild, (List.nodup_append.mp hnd).1, ?_⟩
  simp [ESetInternal.expand, hK, hself1, hself2, hbuild]

/-- Witness for C5: documents `1, 2` open, document `3` fails —
exactly the iterators for `1` and `2` are released. -/
theorem claim_C5_witness :
    build_termlist_tree
      (fun x => if x ≤ 2 then Except.ok ([] : TermListData)
        else Except.error 7) [1, 2, 3, 4] = .error (7, [1, 2]) ∧
    ESetInternal.expand ⟨0, []⟩ 5
      (fun x => if x ≤ 2 then Except.ok ([] : TermListData)
        else Except.error 7) [1, 2, 3, 4] none (fun _ n => (n : ℚ)) 0 =
      .buildFailed 7 [1, 2] := by
  have h := claim_C5
    (fun x => if x ≤ 2 then Except.ok ([] : TermListData)
      else Except.error 7) [1, 2] [4] 3 7 5 none (fun _ n => (n : ℚ)) 0
    ⟨0, []⟩ (by decide) rfl rfl (by decide) rfl (by decide)
  exact ⟨h.1, h.2.2⟩

/-- C6: the end-to-end example — reference set `{doc1: cat:3, dog:1;
doc2: bird:2, cat:1}`, `K = 2`, no decider, `min_wt = 0`, raw combined
frequency as the weight: the candidate count is `3` and the final
sequence is `[(cat, 4), (bird, 2)]` in that order. -/
theorem claim_C6 :
    ESetInternal.expand (E := Unit) ⟨0, []⟩ 2
      (fun d => if d = 1 then .ok [("cat", 3), ("dog", 1)]
        else if d = 2 then .ok [("bird", 2), ("cat", 1)]
        else .error ()) [1, 2] none (fun _ n => (n : ℚ)) 0 =
      .ok ⟨3, [⟨4, "cat"⟩, ⟨2, "bird"⟩]⟩ := by decide

/-- C7: each contract violation — `K = 0`, an empty reference set, or a
second call on an already-populated `ESet::Internal` (`ebound ≠ 0` or
items already present) — fails the corresponding assertion before any
processing, so nothing is appended or overwritten. -/
theorem claim_C7 {E : Type} (self : ESetInternal) (max_esize : ℕ)
    (db : ℕ → Except E TermListData) (rset : List ℕ)
    (ed : Option (String → Bool)) (weight : String → ℕ → ℚ) (m0 : ℚ)
    (h : max_esize = 0 ∨ rset = [] ∨ self.ebound ≠ 0 ∨ self.items ≠ []) :
    ESetInternal.expand self max_esize db rset ed weight m0 =
      .assertFailed := by
  by_cases h1 : max_esize = 0
  · simp [ESetInternal.expand, h1]
  by_cases h2 : rset.isEmpty
  · simp [ESetInternal.expand, h1, h2]
  by_cases h3 : self.ebound ≠ 0
  · simp [ESetInternal.expand, h1, h2, h3]
  by_cases h4 : self.items ≠ []
  · simp [ESetInternal.expand, h1, h2, h3, h4]
  exfalso
  rcases h with h | h | h | h
  · exact h1 h
  · exact h2 (by simp [h])
  · exact h3 h
  · exact h4 h

/-- Witness for C7: a populated `ESet::Internal` rejects a second
`expand`. -/
theorem claim_C7_witness :
    ESetInternal.expand (E := Unit) ⟨1, [⟨1, "a"⟩]⟩ 2
      (fun _ => .ok []) [1] none (fun _ n => (n : ℚ)) 0 = .assertFailed :=
  claim_C7 ⟨1, [⟨1, "a"⟩]⟩ 2 (fun _ => .ok []) [1] none (fun _ n => (n : ℚ))
    0 (Or.inr (Or.inr (Or.inl (by decide))))

/-- Dereference behaviour of a result iterator over an arbitrary stored
item vector: at-end (or out-of-range) dereference fails the assertion;
a valid position returns the element at index `size - off_from_end`; and
walking `off_from_end` down from `size` to `1` (what repeated
`advance()` does) visits the stored sequence front to back. -/
theorem esetIterator_deref_spec (l : List ExpandTerm) :
    (ESetIterator.star ⟨l, 0⟩ = none ∧
     ESetIterator.get_weight ⟨l, 0⟩ = none) ∧
    (∀ off, l.length < off →
       ESetIterator.star ⟨l, off⟩ = none ∧
       ESetIterator.get_weight ⟨l, off⟩ = none) ∧
    (∀ off (h1 : 0 < off) (h2 : off ≤ l.length),
       ESetIterator.star ⟨l, off⟩ =
         some ((l.get ⟨l.length - off,
           Nat.sub_lt (Nat.lt_of_lt_of_le h1 h2) h1⟩).term) ∧
       ESetIterator.get_weight ⟨l, off⟩ =
         some ((l.get ⟨l.length - off,
           Nat.sub_lt (Nat.lt_of_lt_of_le h1 h2) h1⟩).wt)) ∧
    ((List.range l.length).map
        (fun i => ESetIterator.star ⟨l, l.length - i⟩) =
      l.map (fun z => some z.term)) := by
  have hvalid : ∀ off (h1 : 0 < off) (h2 : off ≤ l.length),
      ESetIterator.star ⟨l, off⟩ =
        some ((l.get ⟨l.length - off,
          Nat.sub_lt (Nat.lt_of_lt_of_le h1 h2) h1⟩).term) ∧
      ESetIterator.get_weight ⟨l, off⟩ =
        some ((l.get ⟨l.length - off,
          Nat.sub_lt (Nat.lt_of_lt_of_le h1 h2) h1⟩).wt) := by
    intro off h1 h2
    have hoff0 : ¬ off = 0 := by omega
    have hoffl : ¬ l.length < off := by omega
    have hidx : l.length - off < l.length :=
      Nat.sub_lt (Nat.lt_of_lt_of_le h1 h2) h1
    constructor
    · simp only [ESetIterator.star, if_neg hoff0, if_neg hoffl,
        List.getElem?_eq_getElem hidx, Option.map_some]
      rfl
    · simp only [ESetIterator.get_weight, if_neg hoff0, if_neg hoffl,
        List.getElem?_eq_getElem hidx, Option.map_some]
      rfl
  refine ⟨⟨rfl, rfl⟩, ?_, hvalid, ?_⟩
  · intro off hoff
    have hoff0 : ¬ off = 0 := by omega
    constructor
    · simp [ESetIterator.star, if_neg hoff0, hoff]
    · simp [ESetIterator.get_weight, if_neg hoff0, hoff]
  · refine List.ext_get (by simp) ?_
    intro n h1 h2
    have h1' : n < l.length := by simpa using h1
    have hoff0 : ¬ (l.length - n = 0) := by omega
    have hoffl : ¬ (l.length < l.length - n) := by omega
    have hidx : l.length - (l.length - n) = n := by omega
    rw [List.get_eq_getElem, List.get_eq_getElem, List.getElem_map,
      List.getElem_map, List.getElem_range]
    simp only [ESetIterator.star, if_neg hoff0, if_neg hoffl, hidx,
      List.getElem?_eq_getElem h1']
    simp

/-- C8: dereferencing a result iterator at the end (`off_from_end = 0`,
or past the stored range) fails the assertion; otherwise `term()` and
`weight()` return the fields of the item at rank `size - off_from_end`
of the best-first sequence, so advancing visits the result best-first. -/
theorem claim_C8 (ed : Option (String → Bool)) (K : ℕ) (m0 : ℚ)
    (stream : List (String × ℚ)) :
    (ESetIterator.star ⟨(expandResult ed K m0 stream).2, 0⟩ = none ∧
     ESetIterator.get_weight ⟨(expandResult ed K m0 stream).2, 0⟩ = none) ∧
    (∀ off, (expandResult ed K m0 stream).2.length < off →
       ESetIterator.star ⟨(expandResult ed K m0 stream).2, off⟩ = none ∧
       ESetIterator.get_weight ⟨(expandResult ed K m0 stream).2, off⟩ =
         none) ∧
    (∀ off (h1 : 0 < off)
       (h2 : off ≤ (expandResult ed K m0 stream).2.length),
       ESetIterator.star ⟨(expandResult ed K m0 stream).2, off⟩ =
         some (((expandResult ed K m0 stream).2.get
           ⟨(expandResult ed K m0 stream).2.length - off,
            Nat.sub_lt (Nat.lt_of_lt_of_le h1 h2) h1⟩).term) ∧
       ESetIterator.get_weight ⟨(expandResult ed K m0 stream).2, off⟩ =
         some (((expandResult ed K m0 stream).2.get
           ⟨(expandResult ed K m0 stream).2.length - off,
            Nat.sub_lt (Nat.lt_of_lt_of_le h1 h2) h1⟩).wt)) ∧
    ((List.range (expandResult ed K m0 stream).2.length).map
        (fun i => ESetIterator.star
          ⟨(expandResult ed K m0 stream).2,
           (expandResult ed K m0 stream).2.length - i⟩) =
      (expandResult ed K m0 stream).2.map (fun z => some z.term)) :=
  esetIterator_deref_spec ((expandResult ed K m0 stream).2)

/-- Witness for C8 on the concrete run `bird:2, cat:4, dog:1`, `K = 2`:
the best item is read at `off_from_end = 2`. -/
theorem claim_C8_witness :
    ESetIterator.star
      ⟨(expandResult none 2 0 [("bird", 2), ("cat", 4), ("dog", 1)]).2,
       2⟩ = some "cat" := by
  have h := (claim_C8 none 2 0 [("bird", 2), ("cat", 4), ("dog", 1)]).2.2.1
    2 (by decide) (by decide)
  rw [h.1]
  decide

/-- C10: `ESet::get_description()` is the constant string `"ESet()"`,
whatever the contents; `ESet::Internal::get_description()` by contrast
does depend on the contents. -/
theorem claim_C10 :
    (∀ e : ESet, e.get_description = "ESet()") ∧
    (∃ a b : ESetInternal,
      a.get_description ≠ b.get_description) := by
  constructor
  · intro e
    rfl
  · exact ⟨⟨0, []⟩, ⟨1, []⟩, by decide⟩

end Xapian
